import Mathlib

/-!
Verification development for the `booted` nonparametric resampling library.

The Rust sources (`src/samplers.rs`, `src/bootstrap.rs`, `src/summary.rs`) are
shallowly embedded below:

* `f64` values are modelled by `F64 := Option ℚ`: `some q` is the finite real
  `q`, and `none` stands for a non-finite value (NaN, or the infinities that
  can arise from division by zero).  All arithmetic on `F64` propagates
  `none`, matching IEEE NaN propagation; `divF` sends a zero divisor to
  `none` (IEEE produces an infinity or NaN there — the code paths considered
  here either never divide by zero or immediately feed the result into
  multiplications whose IEEE result is NaN).
* Randomness is modelled by explicit oracles (`g : ℕ → ℕ`, one draw per call
  counter); uniform draws in `0..k` are modelled by reducing the oracle value
  modulo `k`.
* Panics (failed `assert!`, out-of-bounds indexing, `unwrap`/`expect` on
  `None`, integer division by zero) are modelled by an `Option` layer:
  `none` means the Rust code panics.
-/

namespace Booted

/-- Model of an `f64` value: `some q` is the finite real `q`, `none` a
non-finite value (NaN or an infinity). -/
abbrev F64 : Type := Option ℚ

/-- Addition on `f64`; non-finite operands propagate. -/
def addF : F64 → F64 → F64
  | some a, some b => some (a + b)
  | _, _ => none

/-- Subtraction on `f64`; non-finite operands propagate. -/
def subF : F64 → F64 → F64
  | some a, some b => some (a - b)
  | _, _ => none

/-- Multiplication on `f64`; non-finite operands propagate. -/
def mulF : F64 → F64 → F64
  | some a, some b => some (a * b)
  | _, _ => none

/-- Division on `f64`; a zero divisor yields a non-finite value. -/
def divF : F64 → F64 → F64
  | some a, some b => if b = 0 then none else some (a / b)
  | _, _ => none

/-- Squaring, `x.powi(2)`, from the variance computation. -/
def sqF (x : F64) : F64 := mulF x x

/-- Model of `f64::sqrt`.  The square root on nonnegative rationals is abstracted by
the parameter `sq` (its value is irrelevant to every claim below); a negative
argument yields NaN as in IEEE. -/
def sqrtF (sq : ℚ → ℚ) : F64 → F64
  | some a => if a < 0 then none else some (sq a)
  | none => none

/-- Summation `data.iter().sum::<f64>()`: left fold of additions starting from `0.0`. -/
def sumF (l : List F64) : F64 := l.foldl addF (some 0)

/-- Total comparison of two rationals, as `f64::partial_cmp` produces on
finite values. -/
def cmpQ (a b : ℚ) : Ordering :=
  if a < b then .lt else if b < a then .gt else .eq

/-- The sort comparator of `calculate_stats`:
`a.partial_cmp(b).unwrap_or(Ordering::Equal)` — incomparable (NaN) pairs
compare as `Equal`. -/
def cmpF : F64 → F64 → Ordering
  | some a, some b => cmpQ a b
  | _, _ => .eq

/-- Insert a value into a list, before the first strictly greater element
(with respect to `cmpF`). -/
def insertF (x : F64) : List F64 → List F64
  | [] => [x]
  | y :: ys =>
    match cmpF x y with
    | .lt => x :: y :: ys
    | _ => y :: insertF x ys

/-- Model of `data.sort_by(comparator)`, modelled by insertion sort with the same
comparator.  On data without NaN the comparator is a total order, so the
resulting value sequence agrees with any comparison sort; on NaN-bearing data
only the length and element pool of the result matter to the claims below. -/
def sortF : List F64 → List F64
  | [] => []
  | x :: xs => insertF x (sortF xs)

/-- Rust `const ONE_SIGMA: f64 = 0.682689492137086`. -/
def ONE_SIGMA : ℚ := 0.682689492137086

/-- Rust `const TWO_SIGMA: f64 = 0.954499736103642`. -/
def TWO_SIGMA : ℚ := 0.954499736103642

/-- Rust `const THREE_SIGMA: f64 = 0.997300203936740`. -/
def THREE_SIGMA : ℚ := 0.997300203936740

/-- Lower quantile argument of `ci_68`: `(1.0 - ONE_SIGMA) / 2.0`. -/
def q68lo : ℚ := (1 - ONE_SIGMA) / 2

/-- Upper quantile argument of `ci_68`: `(1.0 + ONE_SIGMA) / 2.0`. -/
def q68hi : ℚ := (1 + ONE_SIGMA) / 2

/-- Lower quantile argument of `ci_95`. -/
def q95lo : ℚ := (1 - TWO_SIGMA) / 2

/-- Upper quantile argument of `ci_95`. -/
def q95hi : ℚ := (1 + TWO_SIGMA) / 2

/-- Lower quantile argument of `ci_99`. -/
def q99lo : ℚ := (1 - THREE_SIGMA) / 2

/-- Upper quantile argument of `ci_99`. -/
def q99hi : ℚ := (1 + THREE_SIGMA) / 2

/-- The quantile index `(q * (data.len() - 1) as f64).round() as usize`:
`f64::round` rounds half away from zero, which on nonnegative arguments is
`⌊x + 1/2⌋`. -/
def roundIdx (q : ℚ) (m : ℕ) : ℕ := (⌊q * ((m - 1 : ℕ) : ℚ) + 1/2⌋).toNat

/-- Rust `struct ConfidenceInterval { low, high }` from `summary.rs`. -/
structure ConfidenceInterval where
  low : F64
  high : F64
deriving DecidableEq

/-- Rust `struct Statistics` from `summary.rs`. -/
structure Statistics where
  mean : F64
  median : F64
  stddev : F64
  ci_68 : ConfidenceInterval
  ci_95 : ConfidenceInterval
  ci_99 : ConfidenceInterval
deriving DecidableEq

/-- Rust `let mean = data.iter().sum::<f64>() / n;` (computed on the sorted data,
whose sum equals the input's). -/
def meanOf (sorted : List F64) (m : ℕ) : F64 := divF (sumF sorted) (some (m : ℚ))

/-- Rust `let variance = data.iter().map(|x| (x - mean).powi(2)).sum::<f64>()
/ (n - 1.0).max(1.0);` -/
def varianceOf (sorted : List F64) (m : ℕ) : F64 :=
  divF (sumF (sorted.map (fun x => sqF (subF x (meanOf sorted m)))))
    (some (max ((m : ℚ) - 1) 1))

/-- Rust `let stddev = variance.sqrt();` -/
def stddevOf (sq : ℚ → ℚ) (sorted : List F64) (m : ℕ) : F64 :=
  sqrtF sq (varianceOf sorted m)

/-- The median computation of `calculate_stats`: `mid = len / 2`; even length
averages `data[mid - 1]` and `data[mid]`, odd length takes `data[mid]`.
Out-of-bounds indexing (a panic) is modelled by `none`. -/
def medianOf (sorted : List F64) (m : ℕ) : Option F64 :=
  if m % 2 = 0 then
    match sorted[m / 2 - 1]?, sorted[m / 2]? with
    | some a, some b => some (divF (addF a b) (some 2))
    | _, _ => none
  else sorted[m / 2]?

/-- Rust `let quantile = |q| data[(q * (data.len() - 1) as f64).round() as usize];`
`none` models the panic of an out-of-bounds index. -/
def quantileAt (sorted : List F64) (m : ℕ) (q : ℚ) : Option F64 :=
  sorted[roundIdx q m]?

/-- Rust `fn calculate_stats(data: &mut [f64]) -> Option<Statistics>` from
`summary.rs`.  The outer `Option` models panics (`none` = panic); the inner
`Option` is the Rust return value. -/
def calculate_stats (sq : ℚ → ℚ) (data : List F64) : Option (Option Statistics) :=
  if data.isEmpty then some none
  else
    match medianOf (sortF data) data.length,
        quantileAt (sortF data) data.length q68lo,
        quantileAt (sortF data) data.length q68hi,
        quantileAt (sortF data) data.length q95lo,
        quantileAt (sortF data) data.length q95hi,
        quantileAt (sortF data) data.length q99lo,
        quantileAt (sortF data) data.length q99hi with
    | some md, some l1, some h1, some l2, some h2, some l3, some h3 =>
      some (some ⟨meanOf (sortF data) data.length, md,
        stddevOf sq (sortF data) data.length, ⟨l1, h1⟩, ⟨l2, h2⟩, ⟨l3, h3⟩⟩)
    | _, _, _, _, _, _, _ => none

/-- Rust `enum SamplingStrategy` from `samplers.rs`. -/
inductive SamplingStrategy : Type where
  | Simple : SamplingStrategy
  | MOutOfN : ℕ → SamplingStrategy
  | Block : ℕ → SamplingStrategy
  | Thinned : ℕ → SamplingStrategy
deriving DecidableEq

/-- Rust `fn m_of_n_indices(indices: &[usize], m: usize) -> Vec<usize>`:
`m` iid uniform positions in `[0, indices.len())` (the oracle `g` reduced
modulo the length), mapped through `indices`. -/
def m_of_n_indices (indices : List ℕ) (m : ℕ) (g : ℕ → ℕ) : List ℕ :=
  if m = 0 ∨ indices.isEmpty then []
  else (List.range m).map (fun i => indices.getD (g i % indices.length) 0)

/-- Rust `fn block_indices(indices: &[usize], block_size: usize) -> Vec<usize>`:
`assert!(block_size > 0)` is modelled by `none`; each of `n_blocks` loop
iterations draws a block choice uniformly in `[0, n_blocks)` and pushes the
`block_size` entries starting at `offset + block * block_size`. -/
def block_indices (indices : List ℕ) (block_size : ℕ) (g : ℕ → ℕ) : Option (List ℕ) :=
  if block_size = 0 then none
  else
    let data_len := indices.length
    let effective_len := data_len - data_len % block_size
    if effective_len = 0 then some []
    else
      let offset := data_len - effective_len
      let n_blocks := effective_len / block_size
      some ((List.range n_blocks).flatMap (fun k =>
        (List.range block_size).map (fun j =>
          indices.getD (offset + (g k % n_blocks) * block_size + j) 0)))

/-- Rust `impl Sampler for SamplingStrategy::sample`.  The `Thinned` arm computes
`m = indices.len() / block_size` (a panic when `block_size = 0`, modelled by
`none`) and delegates to the `MOutOfN { m }` arm, which is `m_of_n_indices`;
the delegation is written out here (the delegated arm's body is inlined) and
proved equal to going through `MOutOfN` in `thinned_eq_m_of_n`. -/
def sampleM (s : SamplingStrategy) (indices : List ℕ) (g : ℕ → ℕ) : Option (List ℕ) :=
  match s with
  | .Simple => some (m_of_n_indices indices indices.length g)
  | .MOutOfN m => some (m_of_n_indices indices m g)
  | .Block b => block_indices indices b g
  | .Thinned b =>
    if b = 0 then none
    else some (m_of_n_indices indices (indices.length / b) g)

/-- Rust `fn generate_block_jackknife_indices(blocksize, data_length)`:
the `k`-th emitted sequence is `(r..r + k*b).chain(r + (k+1)*b..N)`.
`N % 0` panics, modelled by `none`. -/
def generate_block_jackknife_indices (blocksize data_length : ℕ) :
    Option (List (List ℕ)) :=
  if blocksize = 0 then none
  else
    let remainder := data_length % blocksize
    let sample_start_index := remainder
    let num_blocks := (data_length - remainder) / blocksize
    some ((List.range num_blocks).map (fun k =>
      let start_block := sample_start_index + k * blocksize
      let end_block := start_block + blocksize
      List.range' sample_start_index (start_block - sample_start_index)
        ++ List.range' end_block (data_length - end_block)))

/-- The operation bundle of `trait BootstrapStatistic`: `add`, `sub`,
`scale` (by an `f64` factor), `zero(len)` and `len`. -/
structure StatOps (T : Type) where
  add : T → T → T
  sub : T → T → T
  scale : T → F64 → T
  zero : ℕ → T
  len : T → ℕ

/-- Rust `impl BootstrapStatistic for f64`: componentwise arithmetic on one value;
`zero(_len) = 0.0`; `len() = 1`. -/
def f64Ops : StatOps F64 :=
  ⟨addF, subF, mulF, fun _ => some 0, fun _ => 1⟩

/-- Rust `impl BootstrapStatistic for Vec<f64>`: componentwise zips (truncating to
the shorter operand, as `zip` does), `zero(len) = vec![0.0; len]`,
`len() = element count`. -/
def vecF64Ops : StatOps (List F64) :=
  ⟨fun a b => List.zipWith addF a b,
   fun a b => List.zipWith subF a b,
   fun a f => a.map (fun x => mulF x f),
   fun len => List.replicate len (some 0),
   fun a => a.length⟩

/-- One inner resample of `bootstrap_bias_correct`:
`(0..n).map(|_| *data.choose(&mut rand::rng()).unwrap()).collect()` — `n`
iid uniform draws with replacement from `data`, the `j`-th draw of iteration
`i` modelled by position `g i j % data.length`. -/
def innerResample (data : List ℕ) (g : ℕ → ℕ → ℕ) (i : ℕ) : List ℕ :=
  (List.range data.length).map (fun j => data.getD (g i j % data.length) 0)

/-- Rust `fn bootstrap_bias_correct(stat, n_boot, data)` from `bootstrap.rs`:
propagate `None` from `stat(data)`, run `n_boot` inner resamples
accumulating `(boot_sum, valid_count)`, return `None` when
`valid_count < n_boot / 2`, else `theta_hat.scale(2.0).sub(mean_boot)` with
`mean_boot = boot_sum.scale(1.0 / valid_count as f64)`. -/
def bootstrap_bias_correct {T : Type} (ops : StatOps T) (stat : List ℕ → Option T)
    (n_boot : ℕ) (data : List ℕ) (g : ℕ → ℕ → ℕ) : Option T :=
  match stat data with
  | none => none
  | some theta_hat =>
    let res := (List.range n_boot).foldl
      (fun acc i =>
        match stat (innerResample data g i) with
        | some val => (ops.add acc.1 val, acc.2 + 1)
        | none => acc)
      (ops.zero (ops.len theta_hat), 0)
    if res.2 < n_boot / 2 then none
    else
      some (ops.sub (ops.scale theta_hat (some 2))
        (ops.scale res.1 (divF (some 1) (some (res.2 : ℚ)))))

/-- The number of successful inner resamples (`valid_count` at loop exit),
characterized directly as a filter length. -/
def biasValid {T : Type} (stat : List ℕ → Option T) (n_boot : ℕ)
    (data : List ℕ) (g : ℕ → ℕ → ℕ) : ℕ :=
  ((List.range n_boot).filter
    (fun i => (stat (innerResample data g i)).isSome)).length

/-- The accumulated `boot_sum` at loop exit, characterized directly as a fold
of the successful inner estimates. -/
def biasBootSum {T : Type} (ops : StatOps T) (stat : List ℕ → Option T)
    (n_boot : ℕ) (data : List ℕ) (g : ℕ → ℕ → ℕ) (len0 : ℕ) : T :=
  ((List.range n_boot).filterMap (fun i => stat (innerResample data g i))).foldl
    ops.add (ops.zero len0)

/-- Rust `struct BootstrapResult<T>` from `bootstrap.rs`. -/
structure BootstrapResultM (T : Type) where
  n_boot : ℕ
  failed_samples : ℕ
  samples : List T
  central_val : Option T
  sampler : SamplingStrategy

/-- Collect a list of fallible computations; any panic (`none`) aborts the
whole collection, as a panic in a parallel task aborts `run`. -/
def mapO {α β : Type} (h : α → Option β) : List α → Option (List β)
  | [] => some []
  | x :: xs =>
    match h x, mapO h xs with
    | some y, some ys => some (y :: ys)
    | _, _ => none

/-- Model of `Bootstrap::run`: compute `central_val = estimator.apply(indices)`, draw
`n_boot` replicas (replica `i` samples with `sampler` under oracle `g i`,
then applies the estimator), partition into successes and failures, and
return the `BootstrapResult`.  The outer `Option` models a panicking sampler
aborting the run. -/
def runM {T : Type} (stat : List ℕ → Option T) (indices : List ℕ) (n_boot : ℕ)
    (sampler : SamplingStrategy) (g : ℕ → ℕ → ℕ) : Option (BootstrapResultM T) :=
  match mapO (fun i => (sampleM sampler indices (g i)).map stat)
      (List.range n_boot) with
  | none => none
  | some samples =>
    some ⟨n_boot, (samples.partition Option.isSome).2.length,
      (samples.partition Option.isSome).1.filterMap id,
      stat indices, sampler⟩

/-- The inner loop of the transpose in `compute_stats` for `Vec<f64>`:
`for (i, val) in sample.iter().enumerate() { transposed[i].push(*val); }`.
`transposed[i]` with `i` out of bounds panics (`none`). -/
def pushRow : List (List F64) → ℕ → List F64 → Option (List (List F64))
  | acc, _, [] => some acc
  | acc, i, v :: rest =>
    if i < acc.length then pushRow (acc.set i (acc.getD i [] ++ [v])) (i + 1) rest
    else none

/-- The outer loop of the transpose: `for sample in samples { ... }`. -/
def transposeRows : List (List F64) → List (List F64) → Option (List (List F64))
  | acc, [] => some acc
  | acc, s :: rest =>
    match pushRow acc 0 s with
    | some acc2 => transposeRows acc2 rest
    | none => none

/-- Rust `SummaryStatistic for Vec<f64>::compute_stats`: panic on empty input,
transpose sample-major to component-major starting from
`vec![Vec::new(); samples[0].len()]`, then `calculate_stats(col).unwrap()`
per column (`unwrap` of `None` panics, merged into the panic layer). -/
def compute_stats_vec (sq : ℚ → ℚ) (samples : List (List F64)) :
    Option (List Statistics) :=
  if samples.isEmpty then none
  else
    match transposeRows (List.replicate (samples.headD []).length []) samples with
    | none => none
    | some transposed => mapO (fun col => (calculate_stats sq col).bind id) transposed

/-- The real-valued comparison used to state ordering claims about `f64`
results, as Rust's `<=` behaves on them: true only when both operands are
finite and ordered accordingly. -/
def leF : F64 → F64 → Prop
  | some a, some b => a ≤ b
  | _, _ => False

/-! ### Generic list lemmas -/

theorem mapO_length {α β : Type} {h : α → Option β} :
    ∀ {l : List α} {ys : List β}, mapO h l = some ys → ys.length = l.length := by
  intro l
  induction l with
  | nil => intro ys hys; simp [mapO] at hys; simp [← hys]
  | cons x xs ih =>
    intro ys hys
    simp only [mapO] at hys
    cases hx : h x with
    | none => rw [hx] at hys; simp at hys
    | some y =>
      rw [hx] at hys
      cases hxs : mapO h xs with
      | none => rw [hxs] at hys; simp at hys
      | some zs =>
        rw [hxs] at hys
        simp only [Option.some.injEq] at hys
        subst hys
        simp [ih hxs]

theorem mapO_isSome {α β : Type} {h : α → Option β} :
    ∀ {l : List α}, (∀ x ∈ l, (h x).isSome) → ∃ ys, mapO h l = some ys := by
  intro l
  induction l with
  | nil => intro _; exact ⟨[], rfl⟩
  | cons x xs ih =>
    intro hall
    obtain ⟨y, hy⟩ := Option.isSome_iff_exists.mp (hall x (List.mem_cons_self x xs))
    obtain ⟨ys, hys⟩ := ih (fun z hz => hall z (List.mem_cons_of_mem x hz))
    exact ⟨y :: ys, by simp [mapO, hy, hys]⟩

theorem filterMap_id_filter_isSome_length {T : Type} :
    ∀ l : List (Option T),
      ((l.filter Option.isSome).filterMap id).length
        + (l.filter (fun a => !Option.isSome a)).length = l.length := by
  intro l
  induction l with
  | nil => rfl
  | cons x xs ih =>
    cases x with
    | none =>
      simp only [List.filter_cons, Option.isSome_none, Bool.not_false, if_pos, if_neg,
        Bool.false_eq_true, ite_false, ite_true, List.length_cons]
      omega
    | some v =>
      simp only [List.filter_cons, Option.isSome_some, Bool.not_true, Bool.false_eq_true,
        ite_false, ite_true, List.filterMap_cons, id, List.length_cons]
      omega

/-! ### Sorting lemmas -/

theorem length_insertF (x : F64) : ∀ l : List F64, (insertF x l).length = l.length + 1 := by
  intro l
  induction l with
  | nil => rfl
  | cons y ys ih =>
    cases hc : cmpF x y <;> simp [insertF, hc, ih]

theorem length_sortF : ∀ l : List F64, (sortF l).length = l.length := by
  intro l
  induction l with
  | nil => rfl
  | cons x xs ih => simp [sortF, length_insertF, ih]

theorem mem_insertF {x z : F64} : ∀ {l : List F64}, z ∈ insertF x l ↔ z = x ∨ z ∈ l := by
  intro l
  induction l with
  | nil => simp [insertF]
  | cons y ys ih =>
    cases hc : cmpF x y <;> simp [insertF, hc, ih] <;> tauto

theorem mem_sortF {z : F64} : ∀ {l : List F64}, z ∈ sortF l ↔ z ∈ l := by
  intro l
  induction l with
  | nil => simp [sortF]
  | cons x xs ih => simp [sortF, mem_insertF, ih]

theorem cmpF_not_lt {a b : ℚ} (h : cmpF (some a) (some b) ≠ .lt) : b ≤ a := by
  by_contra hab
  push_neg at hab
  exact h (by simp [cmpF, cmpQ, hab])

theorem cmpF_lt {a b : ℚ} (h : cmpF (some a) (some b) = .lt) : a ≤ b := by
  by_contra hab
  push_neg at hab
  simp only [cmpF, cmpQ] at h
  rw [if_neg (not_lt.mpr (le_of_lt hab)), if_pos hab] at h
  exact Ordering.noConfusion h

theorem pairwise_insertF {x : F64} :
    ∀ {l : List F64}, x.isSome → (∀ y ∈ l, y.isSome) → l.Pairwise leF →
      (insertF x l).Pairwise leF := by
  intro l
  induction l with
  | nil => intro _ _ _; simp [insertF, List.pairwise_singleton]
  | cons y ys ih =>
    intro hx hl hp
    obtain ⟨a, ha⟩ := Option.isSome_iff_exists.mp hx
    obtain ⟨b, hb⟩ := Option.isSome_iff_exists.mp (hl y (List.mem_cons_self y ys))
    have hys : ∀ z ∈ ys, z.isSome := fun z hz => hl z (List.mem_cons_of_mem y hz)
    rw [List.pairwise_cons] at hp
    obtain ⟨hyz, hpys⟩ := hp
    cases hc : cmpF x y with
    | lt =>
      have hab : a ≤ b := cmpF_lt (by rwa [ha, hb] at hc)
      simp only [insertF, hc]
      rw [List.pairwise_cons]
      refine ⟨?_, by rw [List.pairwise_cons]; exact ⟨hyz, hpys⟩⟩
      intro z hz
      rcases List.mem_cons.mp hz with hz | hz
      · subst hz; rw [ha, hb]; exact hab
      · obtain ⟨c, hcz⟩ := Option.isSome_iff_exists.mp (hys z hz)
        have hbc : leF y z := hyz z hz
        rw [hb, hcz] at hbc
        rw [ha, hcz]
        exact le_trans hab hbc
    | eq =>
      have hba : b ≤ a := cmpF_not_lt (by rw [ha, hb] at hc; simp [hc])
      simp only [insertF, hc]
      rw [List.pairwise_cons]
      refine ⟨?_, ih hx hys hpys⟩
      intro z hz
      rcases mem_insertF.mp hz with hz | hz
      · subst hz; rw [ha, hb]; exact hba
      · exact hyz z hz
    | gt =>
      have hba : b ≤ a := cmpF_not_lt (by rw [ha, hb] at hc; simp [hc])
      simp only [insertF, hc]
      rw [List.pairwise_cons]
      refine ⟨?_, ih hx hys hpys⟩
      intro z hz
      rcases mem_insertF.mp hz with hz | hz
      · subst hz; rw [ha, hb]; exact hba
      · exact hyz z hz

theorem pairwise_sortF :
    ∀ {l : List F64}, (∀ x ∈ l, x.isSome) → (sortF l).Pairwise leF := by
  intro l
  induction l with
  | nil => intro _; simp [sortF]
  | cons x xs ih =>
    intro hl
    have hx : x.isSome := hl x (List.mem_cons_self x xs)
    have hxs : ∀ y ∈ xs, y.isSome := fun y hy => hl y (List.mem_cons_of_mem x hy)
    exact pairwise_insertF hx (fun y hy => hxs y (mem_sortF.mp hy)) (ih hxs)

theorem sortF_all_isSome {l : List F64} (hl : ∀ x ∈ l, x.isSome) :
    ∀ x ∈ sortF l, x.isSome := fun x hx => hl x (mem_sortF.mp hx)

theorem sortF_getElem_le {l : List F64} (hl : ∀ x ∈ l, x.isSome) {i j : ℕ}
    (hij : i ≤ j) (hi : i < (sortF l).length) (hj : j < (sortF l).length) :
    leF (sortF l)[i] (sortF l)[j] := by
  rcases lt_or_eq_of_le hij with hlt | heq
  · exact List.pairwise_iff_getElem.mp (pairwise_sortF hl) i j hi hj hlt
  · subst heq
    have hmem := List.getElem_mem hj
    obtain ⟨a, ha⟩ := Option.isSome_iff_exists.mp (sortF_all_isSome hl _ hmem)
    simp [ha, leF]

/-! ### Quantile index lemmas -/

theorem roundIdx_lt {q : ℚ} {m : ℕ} (h0 : 0 ≤ q) (h1 : q < 1) (hm : 0 < m) :
    roundIdx q m < m := by
  unfold roundIdx
  have hc : (0 : ℚ) ≤ ((m - 1 : ℕ) : ℚ) := Nat.cast_nonneg _
  have hcast : ((m - 1 : ℕ) : ℚ) = (m : ℚ) - 1 := by
    rw [Nat.cast_sub hm]
    simp
  have hx : q * ((m - 1 : ℕ) : ℚ) + 1/2 < (m : ℚ) := by
    have h2 : q * ((m - 1 : ℕ) : ℚ) ≤ ((m - 1 : ℕ) : ℚ) := by
      nlinarith
    rw [hcast] at h2 hc
    rw [hcast]
    linarith
  have hfl : ⌊q * ((m - 1 : ℕ) : ℚ) + 1/2⌋ < (m : ℤ) := by
    rw [Int.floor_lt]
    push_cast
    exact hx
  omega

theorem roundIdx_mono {q q' : ℚ} (h : q ≤ q') (m : ℕ) :
    roundIdx q m ≤ roundIdx q' m := by
  unfold roundIdx
  have : ⌊q * ((m - 1 : ℕ) : ℚ) + 1/2⌋ ≤ ⌊q' * ((m - 1 : ℕ) : ℚ) + 1/2⌋ := by
    apply Int.floor_le_floor
    have hnn : (0 : ℚ) ≤ ((m - 1 : ℕ) : ℚ) := Nat.cast_nonneg _
    have := mul_le_mul_of_nonneg_right h hnn
    linarith
  omega

theorem sigma_q_order :
    0 ≤ q99lo ∧ q99lo ≤ q95lo ∧ q95lo ≤ q68lo ∧ q68lo ≤ q68hi ∧ q68hi ≤ q95hi
      ∧ q95hi ≤ q99hi ∧ q99hi < 1 := by
  norm_num [q99lo, q95lo, q68lo, q68hi, q95hi, q99hi, ONE_SIGMA, TWO_SIGMA, THREE_SIGMA]

theorem medianOf_isSome {sorted : List F64} {m : ℕ} (hm : 0 < m)
    (hlen : sorted.length = m) : ∃ md, medianOf sorted m = some md := by
  unfold medianOf
  by_cases hpar : m % 2 = 0
  · have h2 : 2 ≤ m := by omega
    have hmid1 : m / 2 - 1 < sorted.length := by rw [hlen]; omega
    have hmid : m / 2 < sorted.length := by rw [hlen]; omega
    rw [List.getElem?_eq_getElem hmid1, List.getElem?_eq_getElem hmid, if_pos hpar]
    exact ⟨_, rfl⟩
  · have hmid : m / 2 < sorted.length := by rw [hlen]; omega
    rw [if_neg hpar, List.getElem?_eq_getElem hmid]
    exact ⟨_, rfl⟩

theorem quantileAt_eq {sorted : List F64} {m : ℕ} {q : ℚ} (h0 : 0 ≤ q) (h1 : q < 1)
    (hm : 0 < m) (hlen : sorted.length = m) :
    ∃ hq : roundIdx q m < sorted.length, quantileAt sorted m q = some sorted[roundIdx q m] := by
  have hq : roundIdx q m < sorted.length := by rw [hlen]; exact roundIdx_lt h0 h1 hm
  exact ⟨hq, by rw [quantileAt, List.getElem?_eq_getElem hq]⟩

/-- Characterization of a successful `calculate_stats` run: on non-empty data
it returns `Some` (never panics), and each confidence-interval endpoint is the
sorted data at its quantile index. -/
theorem calculate_stats_eq (sq : ℚ → ℚ) (data : List F64) (hne : data ≠ []) :
    ∃ (md : F64) (h1 : roundIdx q68lo data.length < (sortF data).length)
      (h2 : roundIdx q68hi data.length < (sortF data).length)
      (h3 : roundIdx q95lo data.length < (sortF data).length)
      (h4 : roundIdx q95hi data.length < (sortF data).length)
      (h5 : roundIdx q99lo data.length < (sortF data).length)
      (h6 : roundIdx q99hi data.length < (sortF data).length),
      calculate_stats sq data = some (some
        ⟨meanOf (sortF data) data.length, md, stddevOf sq (sortF data) data.length,
          ⟨(sortF data)[roundIdx q68lo data.length], (sortF data)[roundIdx q68hi data.length]⟩,
          ⟨(sortF data)[roundIdx q95lo data.length], (sortF data)[roundIdx q95hi data.length]⟩,
          ⟨(sortF data)[roundIdx q99lo data.length], (sortF data)[roundIdx q99hi data.length]⟩⟩) := by
  obtain ⟨hq0, hq1, hq2, hq3, hq4, hq5, hq6⟩ := sigma_q_order
  have hm : 0 < data.length := List.length_pos.mpr hne
  have hlen : (sortF data).length = data.length := length_sortF data
  have hb68lo : 0 ≤ q68lo ∧ q68lo < 1 := ⟨le_trans hq0 (le_trans hq1 hq2), by linarith⟩
  have hb68hi : 0 ≤ q68hi ∧ q68hi < 1 := ⟨by linarith [hb68lo.1], by linarith⟩
  have hb95lo : 0 ≤ q95lo ∧ q95lo < 1 := ⟨le_trans hq0 hq1, by linarith⟩
  have hb95hi : 0 ≤ q95hi ∧ q95hi < 1 := ⟨by linarith [hb95lo.1], by linarith⟩
  have hb99lo : 0 ≤ q99lo ∧ q99lo < 1 := ⟨hq0, by linarith⟩
  have hb99hi : 0 ≤ q99hi ∧ q99hi < 1 := ⟨by linarith [hb99lo.1], hq6⟩
  obtain ⟨md, hmd⟩ := medianOf_isSome hm hlen
  obtain ⟨g1, e1⟩ := quantileAt_eq hb68lo.1 hb68lo.2 hm hlen
  obtain ⟨g2, e2⟩ := quantileAt_eq hb68hi.1 hb68hi.2 hm hlen
  obtain ⟨g3, e3⟩ := quantileAt_eq hb95lo.1 hb95lo.2 hm hlen
  obtain ⟨g4, e4⟩ := quantileAt_eq hb95hi.1 hb95hi.2 hm hlen
  obtain ⟨g5, e5⟩ := quantileAt_eq hb99lo.1 hb99lo.2 hm hlen
  obtain ⟨g6, e6⟩ := quantileAt_eq hb99hi.1 hb99hi.2 hm hlen
  refine ⟨md, g1, g2, g3, g4, g5, g6, ?_⟩
  have hempty : data.isEmpty = false := by
    cases data with
    | nil => exact absurd rfl hne
    | cons a as => rfl
  rw [calculate_stats, hempty]
  simp only [Bool.false_eq_true, if_false]
  rw [hmd, e1, e2, e3, e4, e5, e6]

/-- C8: for every non-empty component vector of finite (non-NaN) values, the
confidence intervals computed by `calculate_stats` are nested:
`ci_68.low ≥ ci_95.low ≥ ci_99.low` and `ci_68.high ≤ ci_95.high ≤ ci_99.high`. -/
theorem calculate_stats_ci_nested (sq : ℚ → ℚ) (data : List F64)
    (hne : data ≠ []) (hfin : ∀ x ∈ data, x.isSome) :
    ∃ s, calculate_stats sq data = some (some s)
      ∧ leF s.ci_99.low s.ci_95.low ∧ leF s.ci_95.low s.ci_68.low
      ∧ leF s.ci_68.high s.ci_95.high ∧ leF s.ci_95.high s.ci_99.high := by
  obtain ⟨hq0, hq1, hq2, hq3, hq4, hq5, hq6⟩ := sigma_q_order
  obtain ⟨md, g1, g2, g3, g4, g5, g6, heq⟩ := calculate_stats_eq sq data hne
  refine ⟨_, heq, ?_, ?_, ?_, ?_⟩
  · exact sortF_getElem_le hfin (roundIdx_mono hq1 data.length) g5 g3
  · exact sortF_getElem_le hfin (roundIdx_mono hq2 data.length) g3 g1
  · exact sortF_getElem_le hfin (roundIdx_mono hq4 data.length) g2 g4
  · exact sortF_getElem_le hfin (roundIdx_mono hq5 data.length) g4 g6

/-- C9: `calculate_stats` never panics on non-empty data, NaN entries
included: the sort comparator maps incomparable pairs to `Equal`, every
quantile index `round(q·(m−1))` with `q ∈ [0,1)` is in bounds, and all six
quantile arguments lie in `[0,1)`, so the function returns `Some`. -/
theorem calculate_stats_no_panic (sq : ℚ → ℚ) (data : List F64) (hne : data ≠ []) :
    (∃ s, calculate_stats sq data = some (some s))
      ∧ (∀ y, cmpF none y = .eq ∧ cmpF y none = .eq)
      ∧ (∀ q : ℚ, 0 ≤ q → q < 1 → roundIdx q data.length < data.length)
      ∧ (0 ≤ q68lo ∧ q68lo < 1) ∧ (0 ≤ q68hi ∧ q68hi < 1)
      ∧ (0 ≤ q95lo ∧ q95lo < 1) ∧ (0 ≤ q95hi ∧ q95hi < 1)
      ∧ (0 ≤ q99lo ∧ q99lo < 1) ∧ (0 ≤ q99hi ∧ q99hi < 1) := by
  obtain ⟨hq0, hq1, hq2, hq3, hq4, hq5, hq6⟩ := sigma_q_order
  have hm : 0 < data.length := List.length_pos.mpr hne
  obtain ⟨md, g1, g2, g3, g4, g5, g6, heq⟩ := calculate_stats_eq sq data hne
  refine ⟨⟨_, heq⟩, ?_, fun q h0 h1 => roundIdx_lt h0 h1 hm, ?_, ?_, ?_, ?_, ?_, ?_⟩
  · intro y
    constructor
    · rfl
    · cases y <;> rfl
  · exact ⟨by linarith, by linarith⟩
  · exact ⟨by linarith, by linarith⟩
  · exact ⟨by linarith, by linarith⟩
  · exact ⟨by linarith, by linarith⟩
  · exact ⟨by linarith, by linarith⟩
  · exact ⟨by linarith, by linarith⟩

/-- Witness for `calculate_stats_ci_nested` at the concrete finite data
`[3, 1, 2]`. -/
theorem calculate_stats_ci_nested_witness :
    ∃ s, calculate_stats (fun q => q) [some 3, some 1, some 2] = some (some s)
      ∧ leF s.ci_99.low s.ci_95.low ∧ leF s.ci_95.low s.ci_68.low
      ∧ leF s.ci_68.high s.ci_95.high ∧ leF s.ci_95.high s.ci_99.high :=
  calculate_stats_ci_nested (fun q => q) [some 3, some 1, some 2]
    (by simp) (by intro x hx; fin_cases hx <;> rfl)

/-- Witness for `calculate_stats_no_panic` at the concrete NaN-bearing data
`[NaN, 1]`. -/
theorem calculate_stats_no_panic_witness :
    (∃ s, calculate_stats (fun q => q) [none, some 1] = some (some s))
      ∧ (∀ y, cmpF none y = .eq ∧ cmpF y none = .eq)
      ∧ (∀ q : ℚ, 0 ≤ q → q < 1 →
          roundIdx q (List.length [(none : F64), some 1]) < List.length [(none : F64), some 1])
      ∧ (0 ≤ q68lo ∧ q68lo < 1) ∧ (0 ≤ q68hi ∧ q68hi < 1)
      ∧ (0 ≤ q95lo ∧ q95lo < 1) ∧ (0 ≤ q95hi ∧ q95hi < 1)
      ∧ (0 ≤ q99lo ∧ q99lo < 1) ∧ (0 ≤ q99hi ∧ q99hi < 1) :=
  calculate_stats_no_panic (fun q => q) [none, some 1] (by simp)

/-! ### Transpose lemmas for the vector reducer -/

theorem set_getD_eq : ∀ (l : List (List F64)) (i : ℕ) (v : List F64),
    i < l.length → (l.set i v).getD i [] = v := by
  intro l
  induction l with
  | nil => intro i v h; simp at h
  | cons a as ih =>
    intro i v h
    cases i with
    | zero => rfl
    | succ n => simpa using ih n v (by simpa using h)

theorem set_getD_ne : ∀ (l : List (List F64)) (i j : ℕ) (v : List F64),
    i ≠ j → (l.set i v).getD j [] = l.getD j [] := by
  intro l
  induction l with
  | nil => intro i j v _; simp
  | cons a as ih =>
    intro i j v hij
    cases i with
    | zero =>
      cases j with
      | zero => exact absurd rfl hij
      | succ m => rfl
    | succ n =>
      cases j with
      | zero => rfl
      | succ m => simpa using ih n m v (by omega)

theorem pushRow_length : ∀ {row : List F64} {acc : List (List F64)} {i : ℕ}
    {acc' : List (List F64)}, pushRow acc i row = some acc' → acc'.length = acc.length := by
  intro row
  induction row with
  | nil =>
    intro acc i acc' h
    simp only [pushRow, Option.some.injEq] at h
    rw [← h]
  | cons v rest ih =>
    intro acc i acc' h
    unfold pushRow at h
    split at h
    · have := ih h
      rwa [List.length_set] at this
    · exact Option.noConfusion h

theorem pushRow_isSome : ∀ (row : List F64) (acc : List (List F64)) (i : ℕ),
    i + row.length ≤ acc.length → ∃ acc', pushRow acc i row = some acc' := by
  intro row
  induction row with
  | nil => intro acc i _; exact ⟨acc, rfl⟩
  | cons v rest ih =>
    intro acc i h
    have hi : i < acc.length := by simp at h; omega
    have hrec : i + 1 + rest.length ≤ (acc.set i (acc.getD i [] ++ [v])).length := by
      rw [List.length_set]; simp at h; omega
    obtain ⟨acc', hacc'⟩ := ih _ _ hrec
    exact ⟨acc', by rw [pushRow, if_pos hi]; exact hacc'⟩

theorem pushRow_none : ∀ {row : List F64} {acc : List (List F64)} {i : ℕ},
    i ≤ acc.length → acc.length < i + row.length → pushRow acc i row = none := by
  intro row
  induction row with
  | nil => intro acc i hle hlt; simp at hlt; omega
  | cons v rest ih =>
    intro acc i hle hlt
    rcases lt_or_eq_of_le hle with hi | hi
    · rw [pushRow, if_pos hi]
      apply ih
      · rw [List.length_set]; omega
      · rw [List.length_set]; simp at hlt; omega
    · rw [pushRow, if_neg (by omega)]

theorem pushRow_getD : ∀ {row : List F64} {acc : List (List F64)} {i : ℕ}
    {acc' : List (List F64)}, pushRow acc i row = some acc' →
    ∀ j, ∃ t, acc'.getD j [] = acc.getD j [] ++ t := by
  intro row
  induction row with
  | nil =>
    intro acc i acc' h j
    simp only [pushRow, Option.some.injEq] at h
    exact ⟨[], by rw [← h, List.append_nil]⟩
  | cons v rest ih =>
    intro acc i acc' h j
    unfold pushRow at h
    split at h
    case isTrue hi =>
      obtain ⟨t, ht⟩ := ih h j
      by_cases hij : i = j
      · subst hij
        rw [set_getD_eq acc i _ hi] at ht
        exact ⟨[v] ++ t, by rw [ht, List.append_assoc]⟩
      · rw [set_getD_ne acc i j _ hij] at ht
        exact ⟨t, ht⟩
    case isFalse => exact Option.noConfusion h

theorem pushRow_nonnil : ∀ {row : List F64} {acc : List (List F64)} {i : ℕ}
    {acc' : List (List F64)}, pushRow acc i row = some acc' →
    ∀ j, i ≤ j → j < i + row.length → j < acc.length → acc'.getD j [] ≠ [] := by
  intro row
  induction row with
  | nil => intro acc i acc' _ j _ hlt _; simp at hlt; omega
  | cons v rest ih =>
    intro acc i acc' h j hij hjlt hjacc
    unfold pushRow at h
    split at h
    case isTrue hi =>
      rcases lt_or_eq_of_le hij with hij' | hij'
      · exact ih h j (by omega) (by simp at hjlt ⊢; omega) (by rw [List.length_set]; omega)
      · subst hij'
        obtain ⟨t, ht⟩ := pushRow_getD h i
        rw [set_getD_eq acc i _ hi] at ht
        rw [ht]
        simp
    case isFalse => exact Option.noConfusion h

theorem transposeRows_none_iff : ∀ (samples : List (List F64)) (acc : List (List F64)),
    transposeRows acc samples = none ↔ ∃ s ∈ samples, acc.length < s.length := by
  intro samples
  induction samples with
  | nil => intro acc; simp [transposeRows]
  | cons s rest ih =>
    intro acc
    by_cases hlen : acc.length < s.length
    · have hnone : pushRow acc 0 s = none := pushRow_none (Nat.zero_le _) (by omega)
      have hstep : transposeRows acc (s :: rest) = none := by
        rw [transposeRows, hnone]
      exact iff_of_true hstep ⟨s, List.mem_cons_self s rest, hlen⟩
    · push_neg at hlen
      obtain ⟨acc2, hacc2⟩ := pushRow_isSome s acc 0 (by omega)
      have hl2 : acc2.length = acc.length := pushRow_length hacc2
      have hstep : transposeRows acc (s :: rest) = transposeRows acc2 rest := by
        rw [transposeRows, hacc2]
      rw [hstep]
      rw [ih acc2]
      constructor
      · rintro ⟨t, ht, hlt⟩
        exact ⟨t, List.mem_cons_of_mem s ht, by omega⟩
      · rintro ⟨t, ht, hlt⟩
        rcases List.mem_cons.mp ht with rfl | ht'
        · omega
        · exact ⟨t, ht', by omega⟩

theorem transposeRows_some : ∀ (samples : List (List F64)) (acc : List (List F64)),
    (∀ s ∈ samples, s.length ≤ acc.length) →
    ∃ acc', transposeRows acc samples = some acc' ∧ acc'.length = acc.length
      ∧ ∀ j, ∃ t, acc'.getD j [] = acc.getD j [] ++ t := by
  intro samples
  induction samples with
  | nil =>
    intro acc _
    exact ⟨acc, rfl, rfl, fun j => ⟨[], by rw [List.append_nil]⟩⟩
  | cons s rest ih =>
    intro acc hall
    have hs : s.length ≤ acc.length := hall s (List.mem_cons_self s rest)
    obtain ⟨acc2, hacc2⟩ := pushRow_isSome s acc 0 (by omega)
    have hl2 : acc2.length = acc.length := pushRow_length hacc2
    obtain ⟨acc', hrun, hlen', hgrow⟩ :=
      ih acc2 (fun t ht => by
        rw [hl2]; exact hall t (List.mem_cons_of_mem s ht))
    refine ⟨acc', ?_, by omega, ?_⟩
    · rw [transposeRows, hacc2]
      exact hrun
    · intro j
      obtain ⟨t1, ht1⟩ := pushRow_getD hacc2 j
      obtain ⟨t2, ht2⟩ := hgrow j
      exact ⟨t1 ++ t2, by rw [ht2, ht1, List.append_assoc]⟩

/-- The vector reducer succeeds whenever no replica is longer than the first
one: the transpose stays in bounds and every column is non-empty. -/
theorem compute_stats_vec_isSome (sq : ℚ → ℚ) (samples : List (List F64))
    (hne : samples ≠ [])
    (hall : ∀ s ∈ samples, s.length ≤ (samples.headD []).length) :
    ∃ ys, compute_stats_vec sq samples = some ys := by
  obtain ⟨s0, rest, rfl⟩ := List.exists_cons_of_ne_nil hne
  have hvl : (List.replicate ((s0 :: rest).headD []).length ([] : List F64)).length
      = s0.length := by simp
  obtain ⟨acc1, hacc1⟩ := pushRow_isSome s0
    (List.replicate ((s0 :: rest).headD []).length []) 0 (by rw [hvl]; omega)
  have hl1 : acc1.length = s0.length := by rw [pushRow_length hacc1, hvl]
  obtain ⟨acc', hrun, hlen', hgrow⟩ := transposeRows_some rest acc1
    (fun t ht => by rw [hl1]; exact hall t (List.mem_cons_of_mem s0 ht))
  have hcols : ∀ j, j < acc'.length → acc'.getD j [] ≠ [] := by
    intro j hj
    obtain ⟨t, ht⟩ := hgrow j
    have hnn : acc1.getD j [] ≠ [] := by
      apply pushRow_nonnil hacc1 j (Nat.zero_le _)
      · simpa using by omega
      · rw [hvl]; omega
    rw [ht]
    intro hcontra
    exact hnn (by rcases List.append_eq_nil.mp hcontra with ⟨h1, _⟩; exact h1)
  have hmap : ∀ col ∈ acc', ((calculate_stats sq col).bind id).isSome := by
    intro col hcol
    obtain ⟨k, hk, hkeq⟩ := List.mem_iff_getElem.mp hcol
    have hcolD : acc'.getD k [] = col := by
      rw [List.getD_eq_getElem?_getD, List.getElem?_eq_getElem hk]
      simp [hkeq]
    have hcne : col ≠ [] := by rw [← hcolD]; exact hcols k hk
    obtain ⟨md, g1, g2, g3, g4, g5, g6, heq⟩ := calculate_stats_eq sq col hcne
    rw [heq]
    rfl
  obtain ⟨ys, hys⟩ := mapO_isSome hmap
  refine ⟨ys, ?_⟩
  have hstep : transposeRows (List.replicate ((s0 :: rest).headD []).length [])
      (s0 :: rest) = some acc' := by
    rw [transposeRows, hacc1]
    exact hrun
  rw [compute_stats_vec]
  have hempty : (s0 :: rest).isEmpty = false := rfl
  rw [hempty]
  simp only [Bool.false_eq_true, if_false]
  rw [hstep]
  exact hys

/-- C6 (amended): the vector reducer `compute_stats` panics exactly when some
replica is strictly longer than the first replica; in every other case —
including mismatched shapes where later replicas are shorter — it returns a
summary. -/
theorem compute_stats_vec_panic_iff (sq : ℚ → ℚ) (samples : List (List F64))
    (hne : samples ≠ []) :
    compute_stats_vec sq samples = none
      ↔ ∃ s ∈ samples, (samples.headD []).length < s.length := by
  by_cases hex : ∃ s ∈ samples, (samples.headD []).length < s.length
  · obtain ⟨s0, rest, rfl⟩ := List.exists_cons_of_ne_nil hne
    have hrepl : (List.replicate ((s0 :: rest).headD []).length ([] : List F64)).length
        = ((s0 :: rest).headD []).length := List.length_replicate _ _
    have hnone : transposeRows (List.replicate ((s0 :: rest).headD []).length [])
        (s0 :: rest) = none := by
      rw [transposeRows_none_iff]
      obtain ⟨s, hs, hlt⟩ := hex
      exact ⟨s, hs, by rw [hrepl]; exact hlt⟩
    have hres : compute_stats_vec sq (s0 :: rest) = none := by
      rw [compute_stats_vec]
      have hempty : (s0 :: rest).isEmpty = false := rfl
      rw [hempty]
      simp only [Bool.false_eq_true, if_false]
      rw [hnone]
    exact iff_of_true hres hex
  · push_neg at hex
    obtain ⟨ys, hys⟩ := compute_stats_vec_isSome sq samples hne hex
    refine iff_of_false (by rw [hys]; exact Option.noConfusion) ?_
    rintro ⟨s, hs, hlt⟩
    exact absurd hlt (not_lt.mpr (hex s hs))

/-- C6 counterexample: `[[1.0, 2.0], [3.0]]` is a non-empty replica list
containing two replicas of different `len`, yet the vector reducer returns a
summary instead of signalling failure (the shorter second replica never
triggers the out-of-bounds push). -/
theorem compute_stats_vec_mismatch_cex :
    (List.length [some (1 : ℚ), some 2] ≠ List.length [some (3 : ℚ)])
      ∧ compute_stats_vec (fun q => q) [[some 1, some 2], [some 3]] ≠ none := by
  constructor
  · simp
  · obtain ⟨ys, hys⟩ := compute_stats_vec_isSome (fun q => q)
      [[some 1, some 2], [some 3]] (by simp)
      (by intro s hs; fin_cases hs <;> simp)
    rw [hys]
    exact Option.noConfusion

/-- Witness for `compute_stats_vec_panic_iff`: with a second replica longer
than the first, the reducer panics. -/
theorem compute_stats_vec_panic_iff_witness :
    compute_stats_vec (fun q => q) [[some 1], [some 2, some 3]] = none
      ↔ ∃ s ∈ [[some (1 : ℚ)], [some 2, some 3]],
          (List.headD [[some (1 : ℚ)], [some 2, some 3]] []).length < s.length :=
  compute_stats_vec_panic_iff (fun q => q) [[some 1], [some 2, some 3]] (by simp)

/-! ### Bootstrap driver: conservation -/

/-- C1: whenever `Bootstrap::run` completes, every replica is counted exactly
once: `samples.len() + failed_samples = n_boot`. -/
theorem run_conservation {T : Type} (stat : List ℕ → Option T) (indices : List ℕ)
    (n_boot : ℕ) (sampler : SamplingStrategy) (g : ℕ → ℕ → ℕ)
    (r : BootstrapResultM T) (h : runM stat indices n_boot sampler g = some r) :
    r.samples.length + r.failed_samples = n_boot := by
  rw [runM] at h
  cases hm : mapO (fun i => (sampleM sampler indices (g i)).map stat)
      (List.range n_boot) with
  | none => rw [hm] at h; exact Option.noConfusion h
  | some samples =>
    rw [hm] at h
    simp only [Option.some.injEq] at h
    subst h
    simp only [List.partition_eq_filter_filter, Function.comp_def]
    have hcons := filterMap_id_filter_isSome_length samples
    have hlen : samples.length = n_boot := by
      rw [mapO_length hm, List.length_range]
    omega

/-- Witness for `run_conservation` at a concrete two-replica run. -/
theorem run_conservation_witness :
    ∃ r, runM (fun _ => some (1 : ℚ)) [0, 1] 2 SamplingStrategy.Simple
        (fun i j => i + j) = some r
      ∧ r.samples.length + r.failed_samples = 2 := by
  refine ⟨⟨2, 0, [1, 1], some 1, SamplingStrategy.Simple⟩, rfl, ?_⟩
  exact run_conservation (fun _ => some (1 : ℚ)) [0, 1] 2 SamplingStrategy.Simple
    (fun i j => i + j) ⟨2, 0, [1, 1], some 1, SamplingStrategy.Simple⟩ rfl

/-! ### Bias correction -/

theorem foldl_step_eq {T : Type} (ops : StatOps T) (h : ℕ → Option T) :
    ∀ (L : List ℕ) (a : T) (c : ℕ),
      L.foldl (fun acc i =>
          match h i with
          | some val => (ops.add acc.1 val, acc.2 + 1)
          | none => acc) (a, c)
        = ((L.filterMap h).foldl ops.add a,
            c + (L.filter (fun i => (h i).isSome)).length) := by
  intro L
  induction L with
  | nil => intro a c; simp
  | cons x xs ih =>
    intro a c
    cases hx : h x with
    | none =>
      simp only [List.foldl_cons, hx, List.filterMap_cons, List.filter_cons]
      rw [ih]
      simp [hx]
    | some v =>
      simp only [List.foldl_cons, hx, List.filterMap_cons, List.filter_cons]
      rw [ih]
      simp only [hx, Option.isSome_some, ite_true, List.length_cons, List.foldl_cons,
        Prod.mk.injEq]
      exact ⟨by trivial, by omega⟩

/-- C2: characterization of the bias-corrected estimator.  `None` from the
base estimator propagates; otherwise the result is `None` exactly when the
number of successful inner resamples falls below `n_boot / 2` and is
`θ̂.scale(2).sub(boot_sum.scale(1/valid))` otherwise; each inner resample is a
simple with-replacement resample of the sample, of the sample's length. -/
theorem bias_correct_characterization {T : Type} (ops : StatOps T)
    (stat : List ℕ → Option T) (n_boot : ℕ) (data : List ℕ) (g : ℕ → ℕ → ℕ) :
    (stat data = none → bootstrap_bias_correct ops stat n_boot data g = none)
      ∧ (∀ theta_hat, stat data = some theta_hat →
          bootstrap_bias_correct ops stat n_boot data g =
            if biasValid stat n_boot data g < n_boot / 2 then none
            else some (ops.sub (ops.scale theta_hat (some 2))
              (ops.scale (biasBootSum ops stat n_boot data g (ops.len theta_hat))
                (divF (some 1) (some (biasValid stat n_boot data g : ℚ))))))
      ∧ (∀ i, (innerResample data g i).length = data.length)
      ∧ (∀ i x, x ∈ innerResample data g i → x ∈ data) := by
  refine ⟨?_, ?_, ?_, ?_⟩
  · intro hn
    rw [bootstrap_bias_correct, hn]
  · intro theta_hat hs
    rw [bootstrap_bias_correct, hs]
    simp only
    rw [foldl_step_eq ops (fun i => stat (innerResample data g i)) (List.range n_boot)
      (ops.zero (ops.len theta_hat)) 0]
    simp only [Nat.zero_add]
    rfl
  · intro i
    simp [innerResample]
  · intro i x hx
    simp only [innerResample, List.mem_map, List.mem_range] at hx
    obtain ⟨j, hj, hx⟩ := hx
    have hpos : 0 < data.length := by omega
    have hlt : g i j % data.length < data.length := Nat.mod_lt _ hpos
    rw [← hx, List.getD_eq_getElem _ _ hlt]
    exact List.getElem_mem hlt

/-- Witness for `bias_correct_characterization` at a concrete estimator. -/
theorem bias_correct_characterization_witness :
    (fun _ : List ℕ => some (some (1 : ℚ))) [5, 7] = some (some (1 : ℚ))
      ∧ bootstrap_bias_correct f64Ops (fun _ => some (some (1 : ℚ))) 3 [5, 7]
          (fun i j => i + j) =
        if biasValid (fun _ => some (some (1 : ℚ))) 3 [5, 7] (fun i j => i + j) < 3 / 2
        then none
        else some (f64Ops.sub (f64Ops.scale (some 1) (some 2))
          (f64Ops.scale
            (biasBootSum f64Ops (fun _ => some (some (1 : ℚ))) 3 [5, 7] (fun i j => i + j)
              (f64Ops.len (some 1)))
            (divF (some 1)
              (some (biasValid (fun _ => some (some (1 : ℚ))) 3 [5, 7] (fun i j => i + j) : ℚ))))) :=
  ⟨rfl, (bias_correct_characterization f64Ops (fun _ => some (some (1 : ℚ))) 3 [5, 7]
    (fun i j => i + j)).2.1 (some 1) rfl⟩

theorem foldl_step_const {T : Type} (ops : StatOps T) (h : ℕ → Option T)
    (hall : ∀ i, h i = none) :
    ∀ (L : List ℕ) (a : T) (c : ℕ),
      L.foldl (fun acc i =>
          match h i with
          | some val => (ops.add acc.1 val, acc.2 + 1)
          | none => acc) (a, c) = (a, c) := by
  intro L
  induction L with
  | nil => intro a c; rfl
  | cons x xs ih =>
    intro a c
    simp only [List.foldl_cons, hall x]
    exact ih a c

/-- C10: with `n_inner ≤ 1` the underflow check `valid < n_inner / 2` can
never trigger (`n_inner / 2 = 0`), so the wrapped estimator returns `Some`
whenever the base does; if additionally every inner resample fails, the
result is computed from `boot_sum.scale(1.0 / 0.0)` with a zero success
count. -/
theorem bias_correct_small_n_inner {T : Type} (ops : StatOps T)
    (stat : List ℕ → Option T) (n_boot : ℕ) (data : List ℕ) (g : ℕ → ℕ → ℕ)
    (hn : n_boot ≤ 1) :
    n_boot / 2 = 0
      ∧ (∀ theta_hat, stat data = some theta_hat →
          (∃ v, bootstrap_bias_correct ops stat n_boot data g = some v)
            ∧ ((∀ i, stat (innerResample data g i) = none) →
                bootstrap_bias_correct ops stat n_boot data g =
                  some (ops.sub (ops.scale theta_hat (some 2))
                    (ops.scale (ops.zero (ops.len theta_hat))
                      (divF (some 1) (some (0 : ℚ))))))) := by
  have hdiv : n_boot / 2 = 0 := by omega
  refine ⟨hdiv, ?_⟩
  intro theta_hat hs
  constructor
  · rw [bootstrap_bias_correct, hs]
    simp only [hdiv, Nat.not_lt_zero, if_false]
    exact ⟨_, rfl⟩
  · intro hfail
    rw [bootstrap_bias_correct, hs]
    simp only
    rw [foldl_step_const ops (fun i => stat (innerResample data g i)) hfail
      (List.range n_boot) (ops.zero (ops.len theta_hat)) 0]
    simp only [hdiv, Nat.not_lt_zero, if_false, Nat.cast_zero]

/-- Witness for `bias_correct_small_n_inner`: base estimator succeeds on the
population but every inner resample fails; the wrapped estimator still
returns `Some`. -/
theorem bias_correct_small_n_inner_witness :
    (1 : ℕ) / 2 = 0
      ∧ bootstrap_bias_correct f64Ops
          (fun l => if l = [0, 1] then some (some (1 : ℚ)) else none) 1 [0, 1]
          (fun _ _ => 0) =
        some (f64Ops.sub (f64Ops.scale (some 1) (some 2))
          (f64Ops.scale (f64Ops.zero (f64Ops.len (some 1)))
            (divF (some 1) (some (0 : ℚ))))) := by
  have h := bias_correct_small_n_inner f64Ops
    (fun l => if l = [0, 1] then some (some (1 : ℚ)) else none) 1 [0, 1]
    (fun _ _ => 0) (by omega)
  refine ⟨h.1, ?_⟩
  exact (h.2 (some 1) rfl).2 (fun i => rfl)

/-! ### Sampler lemmas -/

theorem length_flatMap_const {α β : Type} (b : ℕ) :
    ∀ (L : List α) (f : α → List β), (∀ x ∈ L, (f x).length = b) →
      (L.flatMap f).length = L.length * b := by
  intro L
  induction L with
  | nil => intro f _; simp
  | cons x xs ih =>
    intro f h
    simp only [List.flatMap_cons, List.length_append, List.length_cons]
    rw [h x (List.mem_cons_self x xs), ih f (fun y hy => h y (List.mem_cons_of_mem x hy))]
    ring

theorem range_map_getD (idx : List ℕ) (start b : ℕ) (h : start + b ≤ idx.length) :
    (List.range b).map (fun j => idx.getD (start + j) 0) = (idx.drop start).take b := by
  apply List.ext_getElem
  · simp
    omega
  · intro i h1 h2
    simp only [List.getElem_map, List.getElem_range, List.getElem_take, List.getElem_drop]
    have hi : i < b := by simpa using h1
    rw [List.getD_eq_getElem idx 0 (by omega)]

theorem m_of_n_empty {idx : List ℕ} {m : ℕ} {g : ℕ → ℕ} (h : m = 0 ∨ idx = []) :
    m_of_n_indices idx m g = [] := by
  rw [m_of_n_indices, if_pos]
  rcases h with h | h
  · exact Or.inl h
  · exact Or.inr (by simp [h])

theorem m_of_n_length {idx : List ℕ} {m : ℕ} {g : ℕ → ℕ} (hm : m ≠ 0) (hne : idx ≠ []) :
    (m_of_n_indices idx m g).length = m := by
  rw [m_of_n_indices, if_neg]
  · simp
  · simp [hm, hne]

theorem m_of_n_mem {idx : List ℕ} {m : ℕ} {g : ℕ → ℕ} :
    ∀ x ∈ m_of_n_indices idx m g, x ∈ idx := by
  intro x hx
  rw [m_of_n_indices] at hx
  split at hx
  case isTrue => simp at hx
  case isFalse hcond =>
    simp only [List.mem_map, List.mem_range] at hx
    obtain ⟨i, _, hx⟩ := hx
    have hne : idx ≠ [] := by
      intro hnil
      exact hcond (Or.inr (by simp [hnil]))
    have hpos : 0 < idx.length := List.length_pos.mpr hne
    have hlt : g i % idx.length < idx.length := Nat.mod_lt _ hpos
    rw [← hx, List.getD_eq_getElem idx 0 hlt]
    exact List.getElem_mem hlt

/-- C3: `Block { b }.sample` on `idx` of length `n` concatenates
`n_blocks = (n − n % b)/b` contiguous runs of `idx`, each of length `b`,
each starting at a grid position `offset + k·b` with `offset = n % b`; the
output length is `n − n % b`, the output is empty when `n < b`, and every
output element comes from a position `≥ offset` of `idx`. -/
theorem block_indices_spec (idx : List ℕ) (b : ℕ) (g : ℕ → ℕ) (hb : 0 < b) :
    ∃ l, block_indices idx b g = some l
      ∧ l.length = idx.length - idx.length % b
      ∧ (idx.length < b → l = [])
      ∧ (∃ c : ℕ → ℕ,
          (∀ k, k < (idx.length - idx.length % b) / b →
            c k < (idx.length - idx.length % b) / b)
          ∧ l = (List.range ((idx.length - idx.length % b) / b)).flatMap
              (fun k => (idx.drop (idx.length % b + c k * b)).take b))
      ∧ (∀ x ∈ l, ∃ p, idx.length % b ≤ p ∧ p < idx.length ∧ idx.getD p 0 = x) := by
  have hbne : b ≠ 0 := by omega
  have hmod_le : idx.length % b ≤ idx.length := Nat.mod_le _ _
  have hmad : idx.length % b + b * (idx.length / b) = idx.length := Nat.mod_add_div _ _
  have hsub : idx.length - idx.length % b = b * (idx.length / b) := by omega
  have hnb : (idx.length - idx.length % b) / b = idx.length / b := by
    rw [hsub, Nat.mul_div_cancel_left _ hb]
  by_cases heff : idx.length - idx.length % b = 0
  · have hl : block_indices idx b g = some [] := by
      rw [block_indices, if_neg hbne]
      simp only [heff, ite_true]
    refine ⟨[], hl, by simp [heff], fun _ => rfl, ⟨fun _ => 0, ?_, ?_⟩, by simp⟩
    · intro k hk
      rw [hnb] at hk
      have h0 : b * (idx.length / b) = 0 := by omega
      rcases Nat.mul_eq_zero.mp h0 with h | h
      · omega
      · omega
    · have hz : (idx.length - idx.length % b) / b = 0 := by rw [heff]; simp
      rw [hz]
      simp
  · have hoffset : idx.length - (idx.length - idx.length % b) = idx.length % b := by
      omega
    have hnBpos : 0 < (idx.length - idx.length % b) / b := by
      rcases Nat.eq_zero_or_pos ((idx.length - idx.length % b) / b) with h0 | h0
      · exfalso
        rw [hnb] at h0
        rw [h0, Nat.mul_zero] at hsub
        exact heff hsub
      · exact h0
    have hmulb : ((idx.length - idx.length % b) / b) * b = idx.length - idx.length % b := by
      rw [hnb, Nat.mul_comm, ← hsub]
    have hdef : block_indices idx b g = some
        ((List.range ((idx.length - idx.length % b) / b)).flatMap (fun k =>
          (List.range b).map (fun j =>
            idx.getD (idx.length - (idx.length - idx.length % b)
              + (g k % ((idx.length - idx.length % b) / b)) * b + j) 0))) := by
      rw [block_indices, if_neg hbne]
      simp only [heff, ite_false, if_neg heff]
    rw [hoffset] at hdef
    have hrun_le : ∀ k, idx.length % b
        + (g k % ((idx.length - idx.length % b) / b)) * b + b ≤ idx.length := by
      intro k
      have hck : g k % ((idx.length - idx.length % b) / b)
          < (idx.length - idx.length % b) / b := Nat.mod_lt _ hnBpos
      have h1 : (g k % ((idx.length - idx.length % b) / b)) * b + b
          ≤ ((idx.length - idx.length % b) / b) * b := by
        have h2 : g k % ((idx.length - idx.length % b) / b) + 1
            ≤ (idx.length - idx.length % b) / b := hck
        calc (g k % ((idx.length - idx.length % b) / b)) * b + b
            = (g k % ((idx.length - idx.length % b) / b) + 1) * b := by ring
          _ ≤ ((idx.length - idx.length % b) / b) * b := Nat.mul_le_mul_right b h2
      rw [hmulb] at h1
      omega
    have hslice : ∀ k ∈ List.range ((idx.length - idx.length % b) / b),
        (List.range b).map (fun j =>
            idx.getD (idx.length % b
              + (g k % ((idx.length - idx.length % b) / b)) * b + j) 0)
          = (idx.drop (idx.length % b
              + (g k % ((idx.length - idx.length % b) / b)) * b)).take b := by
      intro k _
      exact range_map_getD idx _ b (hrun_le k)
    refine ⟨_, hdef, ?_, ?_, ⟨fun k => g k % ((idx.length - idx.length % b) / b), ?_, ?_⟩, ?_⟩
    · rw [length_flatMap_const b _ _ (fun k _ => by simp), List.length_range, hmulb]
    · intro hlt
      exfalso
      have hmeq : idx.length % b = idx.length := Nat.mod_eq_of_lt hlt
      omega
    · intro k _
      exact Nat.mod_lt _ hnBpos
    · rw [List.flatMap_def, List.flatMap_def, List.map_congr_left hslice]
    · intro x hx
      rw [List.mem_flatMap] at hx
      obtain ⟨k, hk, hx⟩ := hx
      simp only [List.mem_map, List.mem_range] at hx
      obtain ⟨j, hj, hx⟩ := hx
      refine ⟨idx.length % b
        + (g k % ((idx.length - idx.length % b) / b)) * b + j, by omega, ?_, hx⟩
      have := hrun_le k
      omega

/-- Witness for `block_indices_spec` at `idx = [3,4,5,6,7]`, `b = 2`. -/
theorem block_indices_spec_witness :
    (0 : ℕ) < 2
      ∧ ∃ l, block_indices [3, 4, 5, 6, 7] 2 (fun k => k) = some l ∧ l.length = 4 := by
  refine ⟨by omega, ?_⟩
  obtain ⟨l, h1, h2, _⟩ := block_indices_spec [3, 4, 5, 6, 7] 2 (fun k => k) (by omega)
  exact ⟨l, h1, by simpa using h2⟩

/-- C4: `Thinned { b }.sample(idx)` behaves identically to
`MOutOfN { m = idx.len() / b }.sample(idx)`: `⌊n/b⌋` iid uniform draws with
replacement from `idx`, and the empty sequence when `⌊n/b⌋ = 0` or `idx` is
empty. -/
theorem thinned_eq_m_of_n (idx : List ℕ) (b : ℕ) (g : ℕ → ℕ) (hb : 0 < b) :
    sampleM (.Thinned b) idx g = sampleM (.MOutOfN (idx.length / b)) idx g
      ∧ ∃ l, sampleM (.Thinned b) idx g = some l
          ∧ (idx.length / b = 0 ∨ idx = [] → l = [])
          ∧ (idx.length / b ≠ 0 → idx ≠ [] → l.length = idx.length / b)
          ∧ (∀ x ∈ l, x ∈ idx) := by
  have hbne : b ≠ 0 := by omega
  constructor
  · rw [sampleM, sampleM, if_neg hbne]
  · refine ⟨m_of_n_indices idx (idx.length / b) g, by rw [sampleM, if_neg hbne], ?_, ?_, ?_⟩
    · intro h
      exact m_of_n_empty h
    · intro hm hne
      exact m_of_n_length hm hne
    · exact m_of_n_mem

/-- Witness for `thinned_eq_m_of_n` at `idx = [0,1,2,3,4]`, `b = 2`. -/
theorem thinned_eq_m_of_n_witness :
    sampleM (.Thinned 2) [0, 1, 2, 3, 4] (fun k => k)
        = sampleM (.MOutOfN (List.length [0, 1, 2, 3, 4] / 2)) [0, 1, 2, 3, 4] (fun k => k)
      ∧ ∃ l, sampleM (.Thinned 2) [0, 1, 2, 3, 4] (fun k => k) = some l ∧ l.length = 2 := by
  obtain ⟨heq, l, hl, _, hlen, _⟩ := thinned_eq_m_of_n [0, 1, 2, 3, 4] 2 (fun k => k) (by omega)
  exact ⟨heq, l, hl, by simpa using hlen (by simp) (by simp)⟩

/-- C5: `generate_block_jackknife_indices(b, N)` emits exactly
`K = (N − N % b)/b` sequences; the `k`-th is the ordered concatenation of
`[r, r + k·b)` and `[r + (k+1)·b, N)` with `r = N % b`, has length
`N − r − b`, and contains no index below `r`. -/
theorem generate_block_jackknife_spec (b N : ℕ) (hb : 0 < b) :
    ∃ L, generate_block_jackknife_indices b N = some L
      ∧ L.length = (N - N % b) / b
      ∧ ∀ k, ∀ hk : k < (N - N % b) / b,
          L.getD k [] = List.range' (N % b) (k * b)
              ++ List.range' (N % b + (k + 1) * b) (N - (N % b + (k + 1) * b))
          ∧ (L.getD k []).length = N - N % b - b
          ∧ ∀ i ∈ L.getD k [], N % b ≤ i := by
  have hbne : b ≠ 0 := by omega
  have hmod_le : N % b ≤ N := Nat.mod_le _ _
  have hmad : N % b + b * (N / b) = N := Nat.mod_add_div _ _
  have hsub : N - N % b = b * (N / b) := by omega
  have hK : (N - N % b) / b = N / b := by rw [hsub, Nat.mul_div_cancel_left _ hb]
  have hdef : generate_block_jackknife_indices b N = some
      ((List.range ((N - N % b) / b)).map (fun k =>
        List.range' (N % b) (N % b + k * b - N % b)
          ++ List.range' (N % b + k * b + b) (N - (N % b + k * b + b)))) := by
    rw [generate_block_jackknife_indices, if_neg hbne]
  refine ⟨_, hdef, by simp, ?_⟩
  intro k hk
  have hkb : (k + 1) * b ≤ N - N % b := by
    have h1 : k + 1 ≤ (N - N % b) / b := hk
    calc (k + 1) * b ≤ ((N - N % b) / b) * b := Nat.mul_le_mul_right b h1
      _ = b * ((N - N % b) / b) := Nat.mul_comm _ _
      _ = b * (N / b) := by rw [hK]
      _ = N - N % b := hsub.symm
  have hk1b : (k + 1) * b = k * b + b := by ring
  have hgd : (List.map (fun k =>
      List.range' (N % b) (N % b + k * b - N % b)
        ++ List.range' (N % b + k * b + b) (N - (N % b + k * b + b)))
      (List.range ((N - N % b) / b))).getD k []
      = List.range' (N % b) (N % b + k * b - N % b)
          ++ List.range' (N % b + k * b + b) (N - (N % b + k * b + b)) := by
    rw [List.getD_eq_getElem _ _ (by simpa using hk)]
    simp
  rw [hgd]
  have he1 : N % b + k * b - N % b = k * b := by omega
  have he2 : N % b + k * b + b = N % b + (k + 1) * b := by omega
  refine ⟨by rw [he1, he2], ?_, ?_⟩
  · have hr1 : (List.range' (N % b) (N % b + k * b - N % b)).length
        = N % b + k * b - N % b := by simp
    have hr2 : (List.range' (N % b + k * b + b) (N - (N % b + k * b + b))).length
        = N - (N % b + k * b + b) := by simp
    rw [List.length_append, hr1, hr2]
    omega
  · intro i hi
    rw [List.mem_append] at hi
    rcases hi with hi | hi
    · exact (List.mem_range'_1.mp hi).1
    · have := (List.mem_range'_1.mp hi).1
      omega

/-- Witness for `generate_block_jackknife_spec` at `b = 3`, `N = 10`. -/
theorem generate_block_jackknife_spec_witness :
    ∃ L, generate_block_jackknife_indices 3 10 = some L ∧ L.length = 3 := by
  obtain ⟨L, h1, h2, _⟩ := generate_block_jackknife_spec 3 10 (by omega)
  exact ⟨L, h1, by simpa using h2⟩

/-! ### Statistic algebra: the zero/len law -/

/-- C7 counterexample: for the scalar `f64` instance, `zero(0).len() = 1`,
so the law `zero(len).len() == len` fails at `len = 0`. -/
theorem zero_len_scalar_cex : f64Ops.len (f64Ops.zero 0) ≠ 0 := by
  intro h
  simp [f64Ops] at h

/-- C7 (amended): the law `zero(len).len() == len` holds for every `len` for
the `Vec<f64>` instance; for the scalar `f64` instance `zero(len).len() = 1`
always, so the law holds there exactly when `len = 1`. -/
theorem zero_len_law_amended :
    (∀ len, vecF64Ops.len (vecF64Ops.zero len) = len)
      ∧ (∀ len, f64Ops.len (f64Ops.zero len) = len ↔ len = 1) := by
  constructor
  · intro len
    simp [vecF64Ops]
  · intro len
    simp only [f64Ops]
    constructor
    · intro h; omega
    · intro h; omega

/-- Witness for `zero_len_law_amended` at concrete lengths. -/
theorem zero_len_law_amended_witness :
    vecF64Ops.len (vecF64Ops.zero 5) = 5
      ∧ (f64Ops.len (f64Ops.zero 1) = 1 ↔ (1 : ℕ) = 1) :=
  ⟨zero_len_law_amended.1 5, zero_len_law_amended.2 1⟩

end Booted
